import Mathlib

/-!
Verification of the iconic-test repository: a front-trimmed growable
sequence (`OptimizedVec`) and a price-indexed store (`Store`) built on it,
with sorted insertion, metadata appension and a volume-bounded `split`.

The definitions below are a shallow embedding of `src/optimized_vec.rs`
and `src/lib.rs`.  Machine integers are embedded as `Int` (i32 prices,
only compared, never overflowing) and `Nat` (u32 sizes, u128 metadata;
the only arithmetic is `min` and guarded subtraction, which never wraps).
`while` loops are embedded as fuel-indexed structural recursions; every
caller passes enough fuel for the loop guard, not the fuel, to terminate
the recursion (each iteration strictly decreases the corresponding
measure, which the initial fuel bounds).  Rust panics are embedded as
`Option` results.
-/

namespace IconicTest

/-- Embedding of `OptimizedVec<T>`: a backing list plus a `first` offset
marking the logical start.  The logical view is `inner[first..]`. -/
structure OptimizedVec (T : Type) where
  first : Nat
  inner : List T
deriving DecidableEq, Repr

namespace OptimizedVec

variable {T : Type}

/-- The logical view `backing[first..]`, which `Debug` and `PartialEq`
on the Rust side expose. -/
def view (v : OptimizedVec T) : List T := v.inner.drop v.first

/-- `len()`: backing length minus offset. -/
def length (v : OptimizedVec T) : Nat := v.inner.length - v.first

/-- `is_empty()`. -/
def isEmpty (v : OptimizedVec T) : Bool := v.length == 0

/-- `OptimizedVec::new()` and `with_capacity` (capacity is not modelled). -/
def empty : OptimizedVec T := ⟨0, []⟩

/-- `From<Vec<T>>`: takes the backing verbatim with offset 0. -/
def ofList (l : List T) : OptimizedVec T := ⟨0, l⟩

/-- `push(value)`: appends at the backing end. -/
def push (v : OptimizedVec T) (x : T) : OptimizedVec T :=
  ⟨v.first, v.inner ++ [x]⟩

/-- Embedding of `OptimizedVec::insert(idx, value)`.  Note the fallback
branch calls `Vec::insert` with the raw `idx`, not `first + idx`,
exactly as the Rust source does. -/
def insert (v : OptimizedVec T) (idx : Nat) (x : T) : OptimizedVec T :=
  if v.inner.length ≠ 0 then
    if idx = 0 ∧ v.first ≠ 0 then
      ⟨v.first - 1, v.inner.set (v.first - 1) x⟩
    else
      ⟨v.first, v.inner.insertIdx idx x⟩
  else
    ⟨v.first, v.inner.insertIdx idx x⟩

/-- Embedding of `OptimizedVec::remove(idx)` (the Rust code first asserts
`len() != 0`; all uses below are in range, where the assertion holds). -/
def remove (v : OptimizedVec T) (idx : Nat) : OptimizedVec T :=
  if v.inner.length ≠ 0 then
    if idx = 0 then
      ⟨v.first + 1, v.inner⟩
    else
      ⟨v.first, v.inner.eraseIdx (v.first + idx)⟩
  else
    ⟨v.first, v.inner.eraseIdx idx⟩

/-- `get(idx)`: logical index translated by the offset (with a default in
place of the Rust out-of-bounds panic; all uses below are in range). -/
def getD (v : OptimizedVec T) (idx : Nat) (d : T) : T :=
  v.inner.getD (v.first + idx) d

/-- Writing through `get_mut(idx)`: set the element at `first + idx`. -/
def setAt (v : OptimizedVec T) (idx : Nat) (x : T) : OptimizedVec T :=
  ⟨v.first, v.inner.set (v.first + idx) x⟩

/-- Loop of `slice::binary_search_by` (the std algorithm: halve the
`left..right` window, returning `Ok mid` on an exact comparison), run over
the logical view.  `Except.ok` is Rust's `Ok`, `Except.error` is `Err`. -/
def bsLoop (l : List T) (d : T) (key : T → Int) (k : Int) :
    Nat → Nat → Nat → Except Nat Nat
  | 0, left, _ => Except.error left
  | fuel + 1, left, right =>
    if left < right then
      let mid := left + (right - left) / 2
      let p := key (l.getD mid d)
      if p < k then bsLoop l d key k fuel (mid + 1) right
      else if k < p then bsLoop l d key k fuel left mid
      else Except.ok mid
    else Except.error left

/-- `binary_search_by_key(key, key_fn)` over the logical view.  The window
shrinks strictly every iteration, so `view.length + 1` fuel always
suffices. -/
def binarySearchByKey (v : OptimizedVec T) (d : T) (key : T → Int) (k : Int) :
    Except Nat Nat :=
  bsLoop v.view d key k (v.view.length + 1) 0 v.view.length

end OptimizedVec

abbrev SizeMetaList := OptimizedVec (Nat × Nat)
abbrev StoreInner := OptimizedVec (Int × SizeMetaList)

/-- Default slot handed to `getD` (never read in an in-range call). -/
def dfltSlot : Nat × Nat := (0, 0)

/-- Default price level handed to `getD` (never read in an in-range call). -/
def dfltLevel : Int × SizeMetaList := (0, OptimizedVec.empty)

/-- Embedding of `Store`. -/
structure Store where
  inner : StoreInner
deriving DecidableEq, Repr

namespace Store

/-- `Store::new()`. -/
def new : Store := ⟨OptimizedVec.empty⟩

/-- `Store::find_price_idx`: binary search on the price component. -/
def findPriceIdx (s : Store) (price : Int) : Except Nat Nat :=
  s.inner.binarySearchByKey dfltLevel (fun e => e.1) price

/-- Embedding of `Store::insert`. -/
def insert (s : Store) (elem : Int × SizeMetaList) : Store :=
  let idx := match s.findPriceIdx elem.1 with
    | Except.ok i => i
    | Except.error i => i
  ⟨s.inner.insert idx elem⟩

/-- Embedding of `Store::append_size_and_meta_to_price`; `none` embeds the
`panic!` on a missing price. -/
def appendSizeAndMetaToPrice (s : Store) (price : Int) (m : Nat × Nat) :
    Option Store :=
  match s.findPriceIdx price with
  | Except.ok idx =>
    let e := s.inner.getD idx dfltLevel
    some ⟨s.inner.setAt idx (e.1, e.2.push m)⟩
  | Except.error _ => none

/-- Loop of `Store::split_sizes`: walk the slots of one size-list,
moving `min requested size` out of each, removing emptied slots, until
the list is exhausted or the budget reaches zero.  Returns the mutated
size-list, the accumulated moved slots and the remaining budget. -/
def splitSizesLoop :
    Nat → SizeMetaList → SizeMetaList → Nat → Nat →
    SizeMetaList × SizeMetaList × Nat
  | 0, sizes, acc, _, requested => (sizes, acc, requested)
  | fuel + 1, sizes, acc, idx, requested =>
    if idx < sizes.length ∧ requested ≠ 0 then
      let slot := sizes.getD idx dfltSlot
      let newSize := min requested slot.1
      let sizes2 := sizes.setAt idx (slot.1 - newSize, slot.2)
      let acc2 := acc.push (newSize, slot.2)
      let requested2 := requested - newSize
      if slot.1 - newSize = 0 then
        splitSizesLoop fuel (sizes2.remove idx) acc2 idx requested2
      else
        splitSizesLoop fuel sizes2 acc2 (idx + 1) requested2
    else (sizes, acc, requested)

/-- Embedding of `Store::split_sizes(price_idx, requested)`: runs the slot
loop on the size-list of the level at `price_idx` and writes it back.
Returns the mutated store, the `drained` flag (the size-list became
logically empty), the produced size-list and the leftover budget.
`length - idx` shrinks every iteration, so `length` fuel suffices. -/
def splitSizes (s : Store) (priceIdx : Nat) (requested : Nat) :
    Store × Bool × SizeMetaList × Nat :=
  let e := s.inner.getD priceIdx dfltLevel
  let r := splitSizesLoop e.2.length e.2 OptimizedVec.empty 0 requested
  (⟨s.inner.setAt priceIdx (e.1, r.1)⟩, r.1.isEmpty, r.2.1, r.2.2)

/-- Loop of `Store::split`: walk price levels below `ub`, splitting each
through `splitSizes`, pushing the non-empty produced lists onto the result
accumulator, and removing drained levels from the store. -/
def splitLoop :
    Nat → StoreInner → StoreInner → Nat → Nat → Nat →
    StoreInner × StoreInner
  | 0, inner, acc, _, _, _ => (inner, acc)
  | fuel + 1, inner, acc, idx, ub, requested =>
    if idx < ub ∧ requested ≠ 0 then
      let price := (inner.getD idx dfltLevel).1
      let r := splitSizes ⟨inner⟩ idx requested
      let acc2 := if r.2.2.1.isEmpty then acc else acc.push (price, r.2.2.1)
      if r.2.1 then
        splitLoop fuel (r.1.inner.remove idx) acc2 idx (ub - 1) r.2.2.2
      else
        splitLoop fuel r.1.inner acc2 (idx + 1) ub r.2.2.2
    else (inner, acc)

/-- Embedding of the `upper_bound` computation at the top of
`Store::split`.  In the `Ok` branch the Rust code enumerates
`self.inner[idx..]`, takes while `price <= max_price` and maps the last
relative index to `idx + 1` — i.e. it produces the length of that
take-while run (the run is non-empty because the element at the found
index compares equal, so the `unwrap` cannot fire). -/
def upperBound (s : Store) (maxPrice : Int) : Nat :=
  match s.findPriceIdx maxPrice with
  | Except.ok idx =>
    ((s.inner.view.drop idx).takeWhile (fun e => decide (e.1 ≤ maxPrice))).length
  | Except.error idx => min idx s.inner.length


/-- Embedding of `Store::split(max_price, requested_size)`.  The first
component is the mutated `self`, the second the returned new store.
`ub - idx` shrinks every iteration, so `ub` fuel suffices. -/
def split (s : Store) (maxPrice : Int) (requestedSize : Nat) :
    Store × Store :=
  let ub := s.upperBound maxPrice
  let r := splitLoop ub s.inner OptimizedVec.empty 0 ub requestedSize
  (⟨r.1⟩, ⟨r.2⟩)

/-- The store's content as plain nested lists: exactly what the derived
`Debug`/`PartialEq` of the Rust `Store` expose (both recurse through the
logical views). -/
def toLists (s : Store) : List (Int × List (Nat × Nat)) :=
  s.inner.view.map (fun e => (e.1, e.2.view))

/-- The logical sequence of prices of the store. -/
def prices (s : Store) : List Int := s.inner.view.map (fun e => e.1)

/-- Total size held by the store: the sum over all levels of the sizes of
their logical slots. -/
def total (s : Store) : Nat :=
  (s.inner.view.map (fun e => (e.2.view.map (fun x => x.1)).sum)).sum

end Store

/-- Builds a store the way the repository tests do:
`Store::from(Container::from(vec![...]))`, every offset 0. -/
def mkStore (l : List (Int × List (Nat × Nat))) : Store :=
  ⟨OptimizedVec.ofList (l.map (fun e => (e.1, OptimizedVec.ofList e.2)))⟩

/-- The initial store of the repository's tests and of the spec's concrete
scenarios: `[(5, [(10,0),(20,0)]), (7, [(10,0),(20,0)])]`. -/
def initialStore : Store := mkStore [(5, [(10, 0), (20, 0)]), (7, [(10, 0), (20, 0)])]

/-- A valid four-level store used to drive the store through `split` into a
state with a non-zero front offset. -/
def fourLevelStore : Store :=
  mkStore [(1, [(5, 0)]), (2, [(5, 0)]), (3, [(7, 0)]), (9, [(7, 0)])]

/-- Every slot of a size-list carries a strictly positive size. -/
def SlotsPositive (l : SizeMetaList) : Prop := ∀ x ∈ l.view, 0 < x.1

/-- Validity of a sequence of price levels: no level has an empty
size-list and no slot has size zero. -/
def ValidLevels (l : List (Int × SizeMetaList)) : Prop :=
  ∀ e ∈ l, e.2.view ≠ [] ∧ SlotsPositive e.2

/-- Level-by-level correspondence between the levels of a result store and
the levels of its source: the result's price sequence is the prefix of the
source's price sequence of the result's length, and each result level's
metadata sequence is a front segment of the metadata sequence of the
source level at the same position (the moved slots keep their relative
order). -/
def LevelsCorrespond (stuff src : List (Int × SizeMetaList)) : Prop :=
  stuff.map (fun e => e.1) = (src.map (fun e => e.1)).take stuff.length
  ∧ ∀ i, i < stuff.length → ∃ k,
      (stuff.getD i dfltLevel).2.view.map (fun x => x.2)
        = ((src.getD i dfltLevel).2.view.map (fun x => x.2)).take k

/-- Total size carried by the logical slots of one size-list. -/
def sizeTotal (v : SizeMetaList) : Nat := (v.view.map (fun x => x.1)).sum

/-- Total size carried by a sequence of price levels. -/
def innerTotal (c : StoreInner) : Nat := (c.view.map (fun e => sizeTotal e.2)).sum

/-- C1: refuted as stated.  `OptimizedVec::insert`'s fallback branch calls
`Vec::insert` with the raw logical index instead of `first + index`, so on
a vector with front offset 1 and logical view `[2, 3]`, `insert(1, 9)`
yields logical view `[9, 2, 3]` — the value lands at logical index 0, not
at index 1 as the claim (and the spec's `insert` contract) requires, which
would give `[2, 9, 3]`. -/
theorem insert_at_offset_misplaces_value :
    (((OptimizedVec.ofList ([1, 2, 3] : List Nat)).remove 0).insert 1 9).view = [9, 2, 3]
    ∧ List.insertIdx 1 9 ((OptimizedVec.ofList ([1, 2, 3] : List Nat)).remove 0).view = [2, 9, 3]
    ∧ ([9, 2, 3] : List Nat) ≠ [2, 9, 3] := by decide

/-- C2: refuted as stated.  Starting from the sorted store
`[(1,[(5,0)]), (3,[(7,0)]), (9,[(7,0)])]`, the call `split(1, 100)` drains
the lowest level by bumping the front offset, and the subsequent
`insert((5, [(4,0)]))` then inserts at a physical index (the
`OptimizedVec::insert` fallback forgets the offset), leaving the price
sequence `[5, 3, 9]`, which is not non-decreasing. -/
theorem sortedness_broken_by_insert_after_split :
    List.Pairwise (· ≤ ·) (mkStore [(1, [(5, 0)]), (3, [(7, 0)]), (9, [(7, 0)])]).prices
    ∧ ¬ List.Pairwise (· ≤ ·)
        (((mkStore [(1, [(5, 0)]), (3, [(7, 0)]), (9, [(7, 0)])]).split 1 100).1.insert
          (5, OptimizedVec.ofList [(4, 0)])).prices := by decide

/-- C3: refuted as stated.  Applying the operation sequence
`push 10; push 20; push 30; remove 0; insert 1 99` to an empty
`OptimizedVec` yields logical view `[99, 20, 30]`, while the same logical
operations on a plain sequence yield `[20, 99, 30]`: the offset-blind
fallback of `insert` breaks the refinement, letting the physical layout
show through the logical view. -/
theorem logical_view_diverges_from_plain_sequence :
    (((((OptimizedVec.empty.push 10).push 20).push 30).remove 0).insert 1 99).view
      = [99, 20, 30]
    ∧ List.insertIdx 1 99 (List.eraseIdx (([] ++ [10] ++ [20] ++ [30] : List Nat)) 0)
      = [20, 99, 30]
    ∧ ([99, 20, 30] : List Nat) ≠ [20, 99, 30] := by decide

/-- C5: refuted as stated.  On the store `[(1,[(5,0)]), (3,[(5,0)])]` the
call `split(3, 100)` finds price 3 at index 1, but the `Ok` branch of the
`upper_bound` computation returns the length of the take-while run (1)
without adding the base index, so only the first level is scanned: the
level with price exactly equal to `max_price` is left completely
untouched even though 95 units of the requested size remain. -/
theorem boundary_price_level_skipped :
    ((mkStore [(1, [(5, 0)]), (3, [(5, 0)])]).split 3 100).1.toLists = [(3, [(5, 0)])]
    ∧ ((mkStore [(1, [(5, 0)]), (3, [(5, 0)])]).split 3 100).2.total = 5 := by decide

/-- C6: confirmed.  On the store `[(5,[(10,0),(20,0)]), (7,[(10,0),(20,0)])]`
the call `split(8, 35)` leaves `self` equal to `[(7,[(5,0),(20,0)])]` and
returns `[(5,[(10,0),(20,0)]), (7,[(5,0)])]` (equality of stores is the
derived `PartialEq`, which compares the logical nested views). -/
theorem split_price_8_size_35 :
    (initialStore.split 8 35).1.toLists = [(7, [(5, 0), (20, 0)])]
    ∧ (initialStore.split 8 35).2.toLists = [(5, [(10, 0), (20, 0)]), (7, [(5, 0)])] := by
  decide

/-- C7: refuted as stated.  From the valid store
`[(1,[(5,0)]), (2,[(5,0)]), (3,[(7,0)]), (9,[(7,0)])]`, two `split(2, 100)`
calls drain the two lowest levels (front offset becomes 2, the drained
levels stay in backing slack with emptied size-lists), and the following
`insert((5, [(4,0)]))` — a fully valid argument — inserts at a physical
index below the offset: the freshly inserted level vanishes into slack and
the drained level `(2, [])`, whose size-list is empty, re-enters the
logical view. -/
theorem empty_level_reappears_after_split_insert :
    (((fourLevelStore.split 2 100).1.split 2 100).1.insert
        (5, OptimizedVec.ofList [(4, 0)])).toLists
      = [(2, []), (3, [(7, 0)]), (9, [(7, 0)])] := by decide

/-- C8: confirmed.  For every store and every price, `split(p, 0)` returns
the pair of the unchanged `self` and an empty store: the loop guard
`requested_size != 0` fails immediately, so no level and no slot is
touched. -/
theorem split_zero_request_noop (s : Store) (p : Int) :
    s.split p 0 = (s, Store.new) := by
  unfold Store.split
  cases h : s.upperBound p with
  | zero => rfl
  | succ n => simp [Store.splitLoop, Store.new]

/-- C9: partially refuted.  Appending to an existing price does push the
pair onto that price's size-list (first conjunct: the spec's
insert-9-then-append scenario), and appending to a missing price aborts
(modelled as `none`); but the final part of the claim — a price that was
just inserted is found by the subsequent append — fails: after two
`split(2, 100)` calls the store has front offset 2, the insert of price 5
lands in backing slack (the `OptimizedVec::insert` fallback forgets the
offset), and the subsequent `append_size_and_meta_to_price(5, (3,7))`
panics (second conjunct). -/
theorem append_after_insert_panics_on_offset_store :
    (((Store.new.insert (9, OptimizedVec.ofList [(1, 0)])).appendSizeAndMetaToPrice
        9 (3, 7)).map Store.toLists = some [(9, [(1, 0), (3, 7)])])
    ∧ ((((fourLevelStore.split 2 100).1.split 2 100).1.insert
        (5, OptimizedVec.ofList [(4, 0)])).appendSizeAndMetaToPrice 5 (3, 7)
      = none) := by decide

namespace OptimizedVec

variable {T : Type}

theorem view_length (v : OptimizedVec T) : v.view.length = v.length := by
  simp [view, length]

theorem view_push (v : OptimizedVec T) (x : T) (h : v.first ≤ v.inner.length) :
    (v.push x).view = v.view ++ [x] := by
  simp [view, push, List.drop_append_of_le_length h]

theorem view_setAt (v : OptimizedVec T) (idx : Nat) (x : T) :
    (v.setAt idx x).view = v.view.set idx x := by
  simp [view, setAt, List.set_drop]

theorem drop_eraseIdx_add (l : List T) (j i : Nat) :
    (l.eraseIdx (j + i)).drop j = (l.drop j).eraseIdx i := by
  induction j generalizing l with
  | zero => simp
  | succ j ih =>
    cases l with
    | nil => simp
    | cons a l =>
      have hji : j + 1 + i = (j + i) + 1 := by omega
      rw [hji, List.eraseIdx_cons_succ, List.drop_succ_cons, List.drop_succ_cons, ih]

theorem view_remove (v : OptimizedVec T) (idx : Nat) :
    (v.remove idx).view = v.view.eraseIdx idx := by
  rcases v with ⟨first, inner⟩
  by_cases hne : inner.length ≠ 0
  · by_cases hidx : idx = 0
    · subst hidx
      simp [remove, view, hne, List.eraseIdx_zero, ← List.drop_one, List.drop_drop]
    · simp only [remove, view, if_pos hne, if_neg hidx]
      exact drop_eraseIdx_add inner first idx
  · have : inner = [] := by
      simpa using List.eq_nil_of_length_eq_zero (by omega)
    subst this
    simp [remove, view]

theorem getD_view (v : OptimizedVec T) (idx : Nat) (d : T) :
    v.getD idx d = v.view.getD idx d := by
  simp [getD, view, List.getD_eq_getElem?_getD, List.getElem?_drop]

theorem length_setAt (v : OptimizedVec T) (idx : Nat) (x : T) :
    (v.setAt idx x).length = v.length := by
  simp [setAt, length]

theorem length_remove (v : OptimizedVec T) (idx : Nat) (h : idx < v.length) :
    (v.remove idx).length = v.length - 1 := by
  rw [← view_length, view_remove,
    List.length_eraseIdx_of_lt (by rw [view_length]; exact h), view_length]

theorem view_eq_nil_iff (v : OptimizedVec T) : v.view = [] ↔ v.length = 0 := by
  constructor
  · intro h
    have := congrArg List.length h
    rw [view_length] at this
    simpa using this
  · intro h
    simp only [view, List.drop_eq_nil_iff]
    simp only [length] at h
    omega

theorem isEmpty_iff_view (v : OptimizedVec T) : v.isEmpty = true ↔ v.view = [] := by
  simp [isEmpty, view_eq_nil_iff]

end OptimizedVec

theorem sum_map_set {α : Type} (f : α → Nat) (l : List α) (i : Nat) (a d : α)
    (h : i < l.length) :
    ((l.set i a).map f).sum + f (l.getD i d) = (l.map f).sum + f a := by
  induction l generalizing i with
  | nil => simp at h
  | cons b l ih =>
    cases i with
    | zero => simp; omega
    | succ i =>
      have h' : i < l.length := by simpa using h
      have := ih i h'
      simp only [List.set_cons_succ, List.map_cons, List.sum_cons, List.getD_cons_succ]
      omega

theorem sum_map_eraseIdx {α : Type} (f : α → Nat) (l : List α) (i : Nat) (d : α)
    (h : i < l.length) :
    ((l.eraseIdx i).map f).sum + f (l.getD i d) = (l.map f).sum := by
  induction l generalizing i with
  | nil => simp at h
  | cons b l ih =>
    cases i with
    | zero => simp; omega
    | succ i =>
      have h' : i < l.length := by simpa using h
      have := ih i h'
      simp only [List.eraseIdx_cons_succ, List.map_cons, List.sum_cons, List.getD_cons_succ]
      omega

theorem getD_set_self {α : Type} (l : List α) (i : Nat) (a d : α) (h : i < l.length) :
    (l.set i a).getD i d = a := by
  simp [List.getD_eq_getElem?_getD, List.getElem?_set_self h]

theorem sizeTotal_empty : sizeTotal OptimizedVec.empty = 0 := rfl

theorem sizeTotal_of_isEmpty (v : SizeMetaList) (h : v.isEmpty = true) :
    sizeTotal v = 0 := by
  rw [sizeTotal, (OptimizedVec.isEmpty_iff_view v).1 h]
  rfl

/-- One slot-loop run conserves size: whatever leaves the size-list enters
the accumulated moved list. -/
theorem splitSizesLoop_total (fuel : Nat) :
    ∀ (sizes acc : SizeMetaList) (idx : Nat) (req : Nat),
      acc.first ≤ acc.inner.length →
      sizeTotal (Store.splitSizesLoop fuel sizes acc idx req).1
        + sizeTotal (Store.splitSizesLoop fuel sizes acc idx req).2.1
        = sizeTotal sizes + sizeTotal acc := by
  induction fuel with
  | zero => intro sizes acc idx req _; rfl
  | succ fuel ih =>
    intro sizes acc idx req hacc
    by_cases hg : idx < sizes.length ∧ req ≠ 0
    · obtain ⟨hidx, hreq⟩ := hg
      simp only [Store.splitSizesLoop, hidx, hreq, ne_eq, not_false_eq_true, and_self,
        if_true]
      set slot := sizes.getD idx dfltSlot with hslot
      set newSize := min req slot.1 with hns
      have hmin : newSize ≤ slot.1 := Nat.min_le_right req slot.1
      set rest := slot.1 - newSize with hrest
      have hsv : sizes.view.getD idx dfltSlot = slot := by
        rw [hslot, OptimizedVec.getD_view]
      have hv : idx < sizes.view.length := by
        rw [OptimizedVec.view_length]; exact hidx
      have h1 : sizeTotal (sizes.setAt idx (rest, slot.2)) + slot.1
          = sizeTotal sizes + rest := by
        have hs := sum_map_set (fun x : Nat × Nat => x.1) sizes.view idx
          (rest, slot.2) dfltSlot hv
        rw [hsv] at hs
        simpa [sizeTotal, OptimizedVec.view_setAt] using hs
      have h2 : sizeTotal (acc.push (newSize, slot.2)) = sizeTotal acc + newSize := by
        simp [sizeTotal, OptimizedVec.view_push _ _ hacc]
      have hacc2 : (acc.push (newSize, slot.2)).first
          ≤ (acc.push (newSize, slot.2)).inner.length := by
        simp only [OptimizedVec.push, List.length_append]
        omega
      by_cases hz : rest = 0
      · rw [if_pos hz]
        have hv2 : idx < (sizes.setAt idx (rest, slot.2)).view.length := by
          rw [OptimizedVec.view_length, OptimizedVec.length_setAt]; exact hidx
        have hg2 : (sizes.setAt idx (rest, slot.2)).view.getD idx dfltSlot
            = (rest, slot.2) := by
          rw [OptimizedVec.view_setAt]
          exact getD_set_self _ _ _ _ hv
        have h3 : sizeTotal ((sizes.setAt idx (rest, slot.2)).remove idx) + rest
            = sizeTotal (sizes.setAt idx (rest, slot.2)) := by
          have he := sum_map_eraseIdx (fun x : Nat × Nat => x.1)
            (sizes.setAt idx (rest, slot.2)).view idx dfltSlot hv2
          rw [hg2] at he
          simpa [sizeTotal, OptimizedVec.view_remove] using he
        have := ih ((sizes.setAt idx (rest, slot.2)).remove idx)
          (acc.push (newSize, slot.2)) idx (req - newSize) hacc2
        rw [h2] at this
        clear_value slot newSize rest
        obtain ⟨s1, s2⟩ := slot
        dsimp only at h1 h3 this hrest hmin hz ⊢
        omega
      · rw [if_neg hz]
        have := ih (sizes.setAt idx (rest, slot.2))
          (acc.push (newSize, slot.2)) (idx + 1) (req - newSize) hacc2
        rw [h2] at this
        clear_value slot newSize rest
        obtain ⟨s1, s2⟩ := slot
        dsimp only at h1 this hrest hmin ⊢
        omega
    · simp [Store.splitSizesLoop, hg]

theorem sizeTotal_splitSizesLoop_start (sizes : SizeMetaList) (req : Nat) :
    sizeTotal (Store.splitSizesLoop sizes.length sizes OptimizedVec.empty 0 req).1
      + sizeTotal (Store.splitSizesLoop sizes.length sizes OptimizedVec.empty 0 req).2.1
      = sizeTotal sizes := by
  have := splitSizesLoop_total sizes.length sizes OptimizedVec.empty 0 req
    (by simp [OptimizedVec.empty])
  simpa [sizeTotal_empty] using this

theorem upperBound_le (s : Store) (p : Int) : s.upperBound p ≤ s.inner.length := by
  unfold Store.upperBound
  cases h : s.findPriceIdx p with
  | ok idx =>
    dsimp only
    have h1 : ((s.inner.view.drop idx).takeWhile
        (fun e : Int × SizeMetaList => decide (e.1 ≤ p))).length
        ≤ (s.inner.view.drop idx).length :=
      List.Sublist.length_le (List.takeWhile_sublist _)
    have h2 : (s.inner.view.drop idx).length ≤ s.inner.view.length :=
      List.Sublist.length_le (List.drop_sublist idx s.inner.view)
    rw [OptimizedVec.view_length] at h2
    omega
  | error idx =>
    dsimp only
    exact Nat.min_le_right _ _

/-- One level-loop run conserves size: whatever leaves the store's levels
enters the accumulator of result levels. -/
theorem splitLoop_total (fuel : Nat) :
    ∀ (c acc : StoreInner) (idx ub : Nat) (req : Nat),
      ub ≤ c.length →
      acc.first ≤ acc.inner.length →
      innerTotal (Store.splitLoop fuel c acc idx ub req).1
        + innerTotal (Store.splitLoop fuel c acc idx ub req).2
        = innerTotal c + innerTotal acc := by
  induction fuel with
  | zero => intro c acc idx ub req _ _; rfl
  | succ fuel ih =>
    intro c acc idx ub req hub hacc
    by_cases hg : idx < ub ∧ req ≠ 0
    · obtain ⟨hiu, hreq⟩ := hg
      have hidx : idx < c.length := lt_of_lt_of_le hiu hub
      simp only [Store.splitLoop, hiu, hreq, ne_eq, not_false_eq_true, and_self, if_true,
        Store.splitSizes]
      set e := c.getD idx dfltLevel with he
      set L := Store.splitSizesLoop e.2.length e.2 OptimizedVec.empty 0 req with hL
      have hv : idx < c.view.length := by rw [OptimizedVec.view_length]; exact hidx
      have hev : c.view.getD idx dfltLevel = e := by rw [he, OptimizedVec.getD_view]
      have hLtot : sizeTotal L.1 + sizeTotal L.2.1 = sizeTotal e.2 :=
        sizeTotal_splitSizesLoop_start e.2 req
      have hset : innerTotal (c.setAt idx (e.1, L.1)) + sizeTotal e.2
          = innerTotal c + sizeTotal L.1 := by
        have hs := sum_map_set (fun lvl : Int × SizeMetaList => sizeTotal lvl.2)
          c.view idx (e.1, L.1) dfltLevel hv
        rw [hev] at hs
        simpa [innerTotal, OptimizedVec.view_setAt] using hs
      have haccEq : ∀ b : StoreInner,
          b = (if L.2.1.isEmpty = true then acc else acc.push (e.1, L.2.1)) →
          innerTotal b = innerTotal acc + sizeTotal L.2.1 ∧ b.first ≤ b.inner.length := by
        intro b hb
        by_cases hemp : L.2.1.isEmpty = true
        · rw [if_pos hemp] at hb
          subst hb
          exact ⟨by simp [sizeTotal_of_isEmpty _ hemp], hacc⟩
        · rw [if_neg hemp] at hb
          subst hb
          constructor
          · simp [innerTotal, OptimizedVec.view_push _ _ hacc]
          · simp only [OptimizedVec.push, List.length_append]
            omega
      obtain ⟨hacc2tot, hacc2wf⟩ := haccEq _ rfl
      by_cases hdr : L.1.isEmpty = true
      · rw [if_pos hdr]
        have hv2 : idx < (c.setAt idx (e.1, L.1)).view.length := by
          rw [OptimizedVec.view_length, OptimizedVec.length_setAt]; exact hidx
        have hg2 : (c.setAt idx (e.1, L.1)).view.getD idx dfltLevel = (e.1, L.1) := by
          rw [OptimizedVec.view_setAt]
          exact getD_set_self _ _ _ _ hv
        have hrem : innerTotal ((c.setAt idx (e.1, L.1)).remove idx)
            = innerTotal (c.setAt idx (e.1, L.1)) := by
          have hrr := sum_map_eraseIdx (fun lvl : Int × SizeMetaList => sizeTotal lvl.2)
            (c.setAt idx (e.1, L.1)).view idx dfltLevel hv2
          rw [hg2] at hrr
          simp only [sizeTotal_of_isEmpty _ hdr] at hrr
          simpa [innerTotal, OptimizedVec.view_remove] using hrr
        have hub2 : ub - 1 ≤ ((c.setAt idx (e.1, L.1)).remove idx).length := by
          rw [OptimizedVec.length_remove _ _ (by rw [OptimizedVec.length_setAt]; exact hidx),
            OptimizedVec.length_setAt]
          omega
        have := ih ((c.setAt idx (e.1, L.1)).remove idx) _ idx (ub - 1) L.2.2 hub2 hacc2wf
        rw [hrem, hacc2tot] at this
        omega
      · rw [if_neg hdr]
        have hub2 : ub ≤ (c.setAt idx (e.1, L.1)).length := by
          rw [OptimizedVec.length_setAt]; exact hub
        have := ih (c.setAt idx (e.1, L.1)) _ (idx + 1) ub L.2.2 hub2 hacc2wf
        rw [hacc2tot] at this
        omega
    · simp [Store.splitLoop, hg]

theorem eraseIdx_set_same {α : Type} (l : List α) (i : Nat) (a : α) :
    (l.set i a).eraseIdx i = l.eraseIdx i := by
  induction l generalizing i with
  | nil => simp
  | cons b l ih =>
    cases i with
    | zero => simp
    | succ i => simp [ih]

theorem drop_eraseIdx_self {α : Type} (l : List α) (i : Nat) :
    (l.eraseIdx i).drop i = l.drop (i + 1) := by
  have h := OptimizedVec.drop_eraseIdx_add l i 0
  simpa [List.eraseIdx_zero, ← List.drop_one, List.drop_drop] using h

theorem drop_eq_getD_cons {α : Type} (l : List α) (i : Nat) (d : α) (h : i < l.length) :
    l.drop i = l.getD i d :: l.drop (i + 1) := by
  induction l generalizing i with
  | nil => simp at h
  | cons a l ih =>
    cases i with
    | zero => simp
    | succ i =>
      have h' : i < l.length := by simpa using h
      simpa using ih i h'

theorem getD_mem {α : Type} (l : List α) (i : Nat) (d : α) (h : i < l.length) :
    l.getD i d ∈ l := by
  rw [List.getD_eq_getElem?_getD, List.getElem?_eq_getElem h]
  exact List.getElem_mem h

theorem getD_mem_view {T : Type} (v : OptimizedVec T) (idx : Nat) (d : T)
    (h : idx < v.length) : v.getD idx d ∈ v.view := by
  rw [OptimizedVec.getD_view]
  exact getD_mem _ _ _ (by rw [OptimizedVec.view_length]; exact h)

/-- Positivity invariant of the slot loop: when every source slot and
every accumulated slot has a positive size, so do the slots of both
outputs (the requested budget is non-zero whenever a slot is pushed). -/
theorem splitSizesLoop_pos (fuel : Nat) :
    ∀ (sizes acc : SizeMetaList) (idx req : Nat),
      acc.first ≤ acc.inner.length →
      (∀ x ∈ sizes.view, 0 < x.1) →
      (∀ x ∈ acc.view, 0 < x.1) →
      (∀ x ∈ (Store.splitSizesLoop fuel sizes acc idx req).1.view, 0 < x.1)
      ∧ ∀ x ∈ (Store.splitSizesLoop fuel sizes acc idx req).2.1.view, 0 < x.1 := by
  induction fuel with
  | zero => intro sizes acc idx req _ hs ha; exact ⟨hs, ha⟩
  | succ fuel ih =>
    intro sizes acc idx req hacc hs ha
    by_cases hg : idx < sizes.length ∧ req ≠ 0
    · obtain ⟨hidx, hreq⟩ := hg
      simp only [Store.splitSizesLoop, hidx, hreq, ne_eq, not_false_eq_true, and_self,
        if_true]
      set slot := sizes.getD idx dfltSlot with hslot
      set newSize := min req slot.1 with hns
      have hslotpos : 0 < slot.1 :=
        hs slot (by rw [hslot]; exact getD_mem_view sizes idx dfltSlot hidx)
      have hnspos : 0 < newSize := by rw [hns]; omega
      have hacc2wf : (acc.push (newSize, slot.2)).first
          ≤ (acc.push (newSize, slot.2)).inner.length := by
        simp only [OptimizedVec.push, List.length_append]
        omega
      have hacc2pos : ∀ x ∈ (acc.push (newSize, slot.2)).view, 0 < x.1 := by
        intro x hx
        rw [OptimizedVec.view_push _ _ hacc] at hx
        rcases List.mem_append.mp hx with hx | hx
        · exact ha x hx
        · rw [List.mem_singleton] at hx
          subst hx
          exact hnspos
      by_cases hz : slot.1 - newSize = 0
      · rw [if_pos hz]
        have hs3 : ∀ x ∈ ((sizes.setAt idx (slot.1 - newSize, slot.2)).remove idx).view,
            0 < x.1 := by
          intro x hx
          rw [OptimizedVec.view_remove, OptimizedVec.view_setAt, eraseIdx_set_same] at hx
          exact hs x (List.eraseIdx_subset _ _ hx)
        exact ih _ _ idx (req - newSize) hacc2wf hs3 hacc2pos
      · rw [if_neg hz]
        have hs2 : ∀ x ∈ (sizes.setAt idx (slot.1 - newSize, slot.2)).view, 0 < x.1 := by
          intro x hx
          rw [OptimizedVec.view_setAt] at hx
          rcases List.mem_or_eq_of_mem_set hx with hx | hx
          · exact hs x hx
          · subst hx
            exact Nat.pos_of_ne_zero hz
        exact ih _ _ (idx + 1) (req - newSize) hacc2wf hs2 hacc2pos
    · simp only [Store.splitSizesLoop, if_neg hg]
      exact ⟨hs, ha⟩

/-- Structure of the slot loop's accumulator: the produced list extends
the incoming accumulator, and the appended slots carry, in order, the
metadata of a front segment of the source slots from `idx` on. -/
theorem splitSizesLoop_tail (fuel : Nat) :
    ∀ (sizes acc : SizeMetaList) (idx req : Nat),
      acc.first ≤ acc.inner.length →
      ∃ tail, (Store.splitSizesLoop fuel sizes acc idx req).2.1.view = acc.view ++ tail
        ∧ tail.map (fun x => x.2)
          = ((sizes.view.drop idx).map (fun x => x.2)).take tail.length := by
  induction fuel with
  | zero =>
    intro sizes acc idx req _
    exact ⟨[], by simp [Store.splitSizesLoop], by simp⟩
  | succ fuel ih =>
    intro sizes acc idx req hacc
    by_cases hg : idx < sizes.length ∧ req ≠ 0
    · obtain ⟨hidx, hreq⟩ := hg
      simp only [Store.splitSizesLoop, hidx, hreq, ne_eq, not_false_eq_true, and_self,
        if_true]
      set slot := sizes.getD idx dfltSlot with hslot
      set newSize := min req slot.1 with hns
      have hacc2wf : (acc.push (newSize, slot.2)).first
          ≤ (acc.push (newSize, slot.2)).inner.length := by
        simp only [OptimizedVec.push, List.length_append]
        omega
      have hview : sizes.view.drop idx = slot :: sizes.view.drop (idx + 1) := by
        have := drop_eq_getD_cons sizes.view idx dfltSlot
          (by rw [OptimizedVec.view_length]; exact hidx)
        rw [← OptimizedVec.getD_view, ← hslot] at this
        exact this
      have hpush : (acc.push (newSize, slot.2)).view = acc.view ++ [(newSize, slot.2)] :=
        OptimizedVec.view_push _ _ hacc
      by_cases hz : slot.1 - newSize = 0
      · rw [if_pos hz]
        obtain ⟨tail, ht1, ht2⟩ := ih ((sizes.setAt idx (slot.1 - newSize, slot.2)).remove idx)
          (acc.push (newSize, slot.2)) idx (req - newSize) hacc2wf
        refine ⟨(newSize, slot.2) :: tail, ?_, ?_⟩
        · rw [ht1, hpush]
          simp
        · have hdrop : ((sizes.setAt idx (slot.1 - newSize, slot.2)).remove idx).view.drop idx
              = sizes.view.drop (idx + 1) := by
            rw [OptimizedVec.view_remove, OptimizedVec.view_setAt, eraseIdx_set_same,
              drop_eraseIdx_self]
          rw [hdrop] at ht2
          simp only [List.map_cons, List.length_cons, hview, List.take_succ_cons]
          rw [ht2]
      · rw [if_neg hz]
        obtain ⟨tail, ht1, ht2⟩ := ih (sizes.setAt idx (slot.1 - newSize, slot.2))
          (acc.push (newSize, slot.2)) (idx + 1) (req - newSize) hacc2wf
        refine ⟨(newSize, slot.2) :: tail, ?_, ?_⟩
        · rw [ht1, hpush]
          simp
        · have hdrop : (sizes.setAt idx (slot.1 - newSize, slot.2)).view.drop (idx + 1)
              = sizes.view.drop (idx + 1) := by
            rw [OptimizedVec.view_setAt]
            exact List.drop_set_of_lt _ _ (Nat.lt_succ_self idx)
          rw [hdrop] at ht2
          simp only [List.map_cons, List.length_cons, hview, List.take_succ_cons]
          rw [ht2]
    · exact ⟨[], by simp [Store.splitSizesLoop, if_neg hg], by simp⟩

theorem splitSizes_new_ne_nil (sizes : SizeMetaList) (req : Nat)
    (hlen : 0 < sizes.length) (hreq : req ≠ 0) :
    (Store.splitSizesLoop sizes.length sizes OptimizedVec.empty 0 req).2.1.view ≠ [] := by
  obtain ⟨n, hn⟩ : ∃ n, sizes.length = n + 1 := ⟨sizes.length - 1, by omega⟩
  rw [hn]
  simp only [Store.splitSizesLoop, hlen, hreq, ne_eq, not_false_eq_true, and_self, if_true]
  set slot := sizes.getD 0 dfltSlot with hslot
  set newSize := min req slot.1 with hns
  have hwf : (OptimizedVec.empty.push (newSize, slot.2)).first
      ≤ (OptimizedVec.empty.push (newSize, slot.2)).inner.length := by
    simp [OptimizedVec.empty, OptimizedVec.push]
  have hview : (OptimizedVec.empty.push (newSize, slot.2)).view = [(newSize, slot.2)] := by
    simp [OptimizedVec.empty, OptimizedVec.push, OptimizedVec.view]
  by_cases hz : slot.1 - newSize = 0
  · rw [if_pos hz]
    obtain ⟨tail, ht1, _⟩ := splitSizesLoop_tail n
      ((sizes.setAt 0 (slot.1 - newSize, slot.2)).remove 0)
      (OptimizedVec.empty.push (newSize, slot.2)) 0 (req - newSize) hwf
    rw [ht1, hview]
    simp
  · rw [if_neg hz]
    obtain ⟨tail, ht1, _⟩ := splitSizesLoop_tail n
      (sizes.setAt 0 (slot.1 - newSize, slot.2))
      (OptimizedVec.empty.push (newSize, slot.2)) 1 (req - newSize) hwf
    rw [ht1, hview]
    simp

theorem splitSizes_new_metas (sizes : SizeMetaList) (req : Nat) :
    ∃ k, (Store.splitSizesLoop sizes.length sizes OptimizedVec.empty 0 req).2.1.view.map
        (fun x => x.2)
      = (sizes.view.map (fun x => x.2)).take k := by
  obtain ⟨tail, ht1, ht2⟩ := splitSizesLoop_tail sizes.length sizes OptimizedVec.empty 0 req
    (by simp [OptimizedVec.empty])
  refine ⟨tail.length, ?_⟩
  rw [ht1]
  simpa [OptimizedVec.empty, OptimizedVec.view] using ht2

theorem levelsCorrespond_nil (src : List (Int × SizeMetaList)) :
    LevelsCorrespond [] src := by
  constructor
  · simp
  · intro i hi
    simp at hi

theorem levelsCorrespond_cons (a e : Int × SizeMetaList)
    (stuff src : List (Int × SizeMetaList))
    (hp : a.1 = e.1)
    (hm : ∃ k, a.2.view.map (fun x => x.2) = (e.2.view.map (fun x => x.2)).take k)
    (h : LevelsCorrespond stuff src) : LevelsCorrespond (a :: stuff) (e :: src) := by
  obtain ⟨h1, h2⟩ := h
  constructor
  · simp only [List.map_cons, List.length_cons, List.take_succ_cons, hp, h1]
  · intro i hi
    cases i with
    | zero => simpa using hm
    | succ i =>
      have hi' : i < stuff.length := by simpa using hi
      simpa using h2 i hi'

/-- Well-formedness invariant of the level loop: the result levels extend
the accumulator by levels that are valid (non-empty, positive) and that
correspond, position by position, to the store's levels from `idx` on. -/
theorem splitLoop_wf (fuel : Nat) :
    ∀ (c acc : StoreInner) (idx ub req : Nat),
      ub ≤ c.length →
      acc.first ≤ acc.inner.length →
      ValidLevels c.view →
      ∃ stuff,
        (Store.splitLoop fuel c acc idx ub req).2.view = acc.view ++ stuff
        ∧ ValidLevels stuff
        ∧ LevelsCorrespond stuff (c.view.drop idx) := by
  induction fuel with
  | zero =>
    intro c acc idx ub req _ _ _
    exact ⟨[], by simp [Store.splitLoop], by intro x hx; simp at hx,
      levelsCorrespond_nil _⟩
  | succ fuel ih =>
    intro c acc idx ub req hub hacc hval
    by_cases hg : idx < ub ∧ req ≠ 0
    · obtain ⟨hiu, hreq⟩ := hg
      have hidx : idx < c.length := lt_of_lt_of_le hiu hub
      simp only [Store.splitLoop, hiu, hreq, ne_eq, not_false_eq_true, and_self, if_true,
        Store.splitSizes]
      set e := c.getD idx dfltLevel with he
      set L := Store.splitSizesLoop e.2.length e.2 OptimizedVec.empty 0 req with hL
      have hemem : e ∈ c.view := by
        rw [he]
        exact getD_mem_view c idx dfltLevel hidx
      obtain ⟨hene, hepos⟩ := hval e hemem
      have helen : 0 < e.2.length := by
        have hne : e.2.view.length ≠ 0 := fun hq => hene (List.eq_nil_of_length_eq_zero hq)
        rw [OptimizedVec.view_length] at hne
        omega
      have hnew_ne : L.2.1.view ≠ [] := by
        rw [hL]
        exact splitSizes_new_ne_nil e.2 req helen hreq
      have hnew_isEmpty : L.2.1.isEmpty = false := by
        cases hq : L.2.1.isEmpty
        · rfl
        · exact absurd ((OptimizedVec.isEmpty_iff_view _).1 hq) hnew_ne
      have hposes := splitSizesLoop_pos e.2.length e.2 OptimizedVec.empty 0 req
        (by simp [OptimizedVec.empty]) hepos
        (by intro x hx; simp [OptimizedVec.empty, OptimizedVec.view] at hx)
      have hnew_pos : ∀ x ∈ L.2.1.view, 0 < x.1 := by
        rw [hL]
        exact hposes.2
      have hsizes_pos : ∀ x ∈ L.1.view, 0 < x.1 := by
        rw [hL]
        exact hposes.1
      have hmetas : ∃ k, L.2.1.view.map (fun x => x.2)
          = (e.2.view.map (fun x => x.2)).take k := by
        rw [hL]
        exact splitSizes_new_metas e.2 req
      have hviewc : c.view.drop idx = e :: c.view.drop (idx + 1) := by
        have hto := drop_eq_getD_cons c.view idx dfltLevel
          (by rw [OptimizedVec.view_length]; exact hidx)
        rw [← OptimizedVec.getD_view, ← he] at hto
        exact hto
      have hacc2wf : (acc.push (e.1, L.2.1)).first
          ≤ (acc.push (e.1, L.2.1)).inner.length := by
        simp only [OptimizedVec.push, List.length_append]
        omega
      have hpush : (acc.push (e.1, L.2.1)).view = acc.view ++ [(e.1, L.2.1)] :=
        OptimizedVec.view_push _ _ hacc
      simp only [hnew_isEmpty, Bool.false_eq_true, if_false]
      by_cases hdr : L.1.isEmpty = true
      · rw [if_pos hdr]
        have hc3view : ((c.setAt idx (e.1, L.1)).remove idx).view = c.view.eraseIdx idx := by
          rw [OptimizedVec.view_remove, OptimizedVec.view_setAt, eraseIdx_set_same]
        have hval3 : ValidLevels ((c.setAt idx (e.1, L.1)).remove idx).view := by
          rw [hc3view]
          intro x hx
          exact hval x (List.eraseIdx_subset _ _ hx)
        have hub3 : ub - 1 ≤ ((c.setAt idx (e.1, L.1)).remove idx).length := by
          rw [OptimizedVec.length_remove _ _ (by rw [OptimizedVec.length_setAt]; exact hidx),
            OptimizedVec.length_setAt]
          omega
        obtain ⟨stuff, hs1, hs2, hs3⟩ := ih ((c.setAt idx (e.1, L.1)).remove idx)
          (acc.push (e.1, L.2.1)) idx (ub - 1) L.2.2 hub3 hacc2wf hval3
        have hdrop3 : ((c.setAt idx (e.1, L.1)).remove idx).view.drop idx
            = c.view.drop (idx + 1) := by
          rw [hc3view, drop_eraseIdx_self]
        refine ⟨(e.1, L.2.1) :: stuff, ?_, ?_, ?_⟩
        · rw [hs1, hpush]
          simp
        · intro x hx
          rcases List.mem_cons.mp hx with hx | hx
          · subst hx
            exact ⟨hnew_ne, hnew_pos⟩
          · exact hs2 x hx
        · rw [hviewc]
          refine levelsCorrespond_cons _ _ _ _ rfl hmetas ?_
          rw [← hdrop3]
          exact hs3
      · rw [if_neg hdr]
        have hLne : L.1.view ≠ [] := by
          intro hnil
          exact hdr ((OptimizedVec.isEmpty_iff_view _).2 hnil)
        have hval2 : ValidLevels (c.setAt idx (e.1, L.1)).view := by
          rw [OptimizedVec.view_setAt]
          intro x hx
          rcases List.mem_or_eq_of_mem_set hx with hx | hx
          · exact hval x hx
          · subst hx
            exact ⟨hLne, hsizes_pos⟩
        have hub2 : ub ≤ (c.setAt idx (e.1, L.1)).length := by
          rw [OptimizedVec.length_setAt]
          exact hub
        obtain ⟨stuff, hs1, hs2, hs3⟩ := ih (c.setAt idx (e.1, L.1))
          (acc.push (e.1, L.2.1)) (idx + 1) ub L.2.2 hub2 hacc2wf hval2
        have hdrop2 : (c.setAt idx (e.1, L.1)).view.drop (idx + 1)
            = c.view.drop (idx + 1) := by
          rw [OptimizedVec.view_setAt]
          exact List.drop_set_of_lt _ _ (Nat.lt_succ_self idx)
        refine ⟨(e.1, L.2.1) :: stuff, ?_, ?_, ?_⟩
        · rw [hs1, hpush]
          simp
        · intro x hx
          rcases List.mem_cons.mp hx with hx | hx
          · subst hx
            exact ⟨hnew_ne, hnew_pos⟩
          · exact hs2 x hx
        · rw [hviewc]
          refine levelsCorrespond_cons _ _ _ _ rfl hmetas ?_
          rw [← hdrop2]
          exact hs3
    · exact ⟨[], by simp [Store.splitLoop, if_neg hg], by intro x hx; simp at hx,
        levelsCorrespond_nil _⟩

/-- C4: confirmed, with no validity hypothesis needed.  For every store
and every `split(max_price, n)` call, the total size in `self` before the
call equals the total size in `self` after the call plus the total size in
the returned store: every unit removed from a slot is appended to the
result, emptied slots and drained levels carry size zero when removed, and
untouched levels contribute unchanged. -/
theorem split_conserves_total (s : Store) (mp : Int) (n : Nat) :
    s.total = (s.split mp n).1.total + (s.split mp n).2.total := by
  have := splitLoop_total (s.upperBound mp) s.inner OptimizedVec.empty 0
    (s.upperBound mp) n (upperBound_le s mp) (by simp [OptimizedVec.empty])
  have hempty : innerTotal (OptimizedVec.empty : StoreInner) = 0 := rfl
  rw [hempty] at this
  simpa [Store.split, Store.total, innerTotal, sizeTotal] using this.symm

/-- C10: confirmed.  For every store whose levels are sorted
non-decreasing by price and valid (no empty size-list, no zero-size slot),
the new store returned by `split(max_price, requested_size)` is itself
valid and sorted, and its levels correspond position by position to the
store's first levels: equal prices, and the moved slots' metadata is a
front segment of the source level's metadata in the same relative
order. -/
theorem split_result_wellformed (s : Store) (mp : Int) (n : Nat)
    (hsort : List.Pairwise (· ≤ ·) s.prices)
    (hval : ValidLevels s.inner.view) :
    List.Pairwise (· ≤ ·) (s.split mp n).2.prices
    ∧ ValidLevels (s.split mp n).2.inner.view
    ∧ LevelsCorrespond (s.split mp n).2.inner.view s.inner.view := by
  obtain ⟨stuff, h1, h2, h3⟩ := splitLoop_wf (s.upperBound mp) s.inner OptimizedVec.empty
    0 (s.upperBound mp) n (upperBound_le s mp) (by simp [OptimizedVec.empty]) hval
  rw [List.drop_zero] at h3
  have hview : (s.split mp n).2.inner.view = stuff := by
    simp only [Store.split]
    rw [h1]
    simp [OptimizedVec.empty, OptimizedVec.view]
  refine ⟨?_, by rw [hview]; exact h2, by rw [hview]; exact h3⟩
  have hpr : (s.split mp n).2.prices = stuff.map (fun x => x.1) := by
    rw [Store.prices, hview]
  rw [hpr, h3.1]
  rw [Store.prices] at hsort
  exact List.Pairwise.sublist (List.take_sublist _ _) hsort

/-- Witness for C10: the hypotheses hold at the repository test store
`[(5,[(10,0),(20,0)]), (7,[(10,0),(20,0)])]` and the theorem applies to
its `split(8, 35)` call. -/
theorem split_result_wellformed_witness :
    (List.Pairwise (· ≤ ·) initialStore.prices ∧ ValidLevels initialStore.inner.view)
    ∧ (List.Pairwise (· ≤ ·) (initialStore.split 8 35).2.prices
      ∧ ValidLevels (initialStore.split 8 35).2.inner.view
      ∧ LevelsCorrespond (initialStore.split 8 35).2.inner.view initialStore.inner.view) :=
  ⟨⟨by decide, by unfold ValidLevels SlotsPositive; decide⟩,
    split_result_wellformed initialStore 8 35 (by decide)
      (by unfold ValidLevels SlotsPositive; decide)⟩

end IconicTest
